/-
Verification of the placeholder and conversation-state core of the
knowmadwriter repository, as a shallow embedding in Lean 4.

Strings are modelled as List Char.  Python regular-expression scans are
modelled as fuel-indexed recursive scanners; the fuel is always instantiated
with the length of the input, which bounds the number of scanning steps, so
the wrappers compute by kernel reduction.

Embedded source artifacts:
  src/placeholder_bot.py                    : detect_placeholders, fill_template
  src/telegram_bot/utils/html_processor.py  : PLACEHOLDERS,
      find_placeholders_in_template, replace_placeholders,
      validate_placeholder_value
  src/telegram_bot/models/placeholder.py    : CustomPlaceholder.validate_value
  src/telegram_bot/core/states.py           : StateManager
  src/telegram_bot/core/handlers.py         : configure_next_custom_placeholder
      (the draft-commit branch)
-/
import Mathlib

namespace Knowmad

/-- Convert a Lean string literal to the List Char representation used
throughout this development. -/
def strL (s : String) : List Char := s.data

/-- The opening brace character of the placeholder delimiter. -/
def lb : Char := '\x7b'

/-- The closing brace character of the placeholder delimiter. -/
def rb : Char := '\x7d'

/-- Wrap a bare placeholder name in the double-brace delimiters. -/
def wrapPh (n : List Char) : List Char := lb :: lb :: (n ++ [rb, rb])

/-! ## Generic association-list operations (Python dict assignment) -/

/-- Python dict assignment: replace the binding of k if present, otherwise
append a new binding at the end (dicts preserve insertion order). -/
def dinsert {κ α : Type} [DecidableEq κ] (l : List (κ × α)) (k : κ) (v : α) :
    List (κ × α) :=
  if l.any (fun kv => decide (kv.1 = k)) then
    l.map (fun kv => if kv.1 = k then (k, v) else kv)
  else l ++ [(k, v)]

/-! ## placeholder_bot.py — the non-greedy scanner

PLACEHOLDER_PATTERN is the regular expression matching an opening double
brace, a non-greedy dot-star capture, and a closing double brace.

takeClose r models the non-greedy part applied to the text r following an
opening double brace: it returns the shortest content up to the first
closing double brace together with the remaining text, and fails if a
newline (which the dot does not match) or the end of the text is reached
first. -/
def takeClose : List Char → Option (List Char × List Char)
  | [] => none
  | [_] => none
  | c :: d :: rest =>
    if c = rb ∧ d = rb then some ([], rest)
    else if c = '\n' then none
    else (takeClose (d :: rest)).map (fun pt => (c :: pt.1, pt.2))

/-- Fuel-indexed scan collecting every match content of PLACEHOLDER_PATTERN,
left to right; on a failed match attempt the engine advances one character. -/
def findAllF : Nat → List Char → List (List Char)
  | 0, _ => []
  | _ + 1, [] => []
  | f + 1, c :: rest =>
    if c = lb ∧ rest.head? = some lb then
      match takeClose rest.tail with
      | some (name, tail) => name :: findAllF f tail
      | none => findAllF f rest
    else findAllF f rest

/-- detect_placeholders from src/placeholder_bot.py: findall of
PLACEHOLDER_PATTERN over the template. -/
def detect_placeholders (t : List Char) : List (List Char) := findAllF t.length t

/-- Fuel-indexed model of PLACEHOLDER_PATTERN.sub with a replacer that maps
the captured name through data: matched regions are replaced, other
characters are copied. -/
def substAllF (data : List Char → List Char) : Nat → List Char → List Char
  | 0, _ => []
  | _ + 1, [] => []
  | f + 1, c :: rest =>
    if c = lb ∧ rest.head? = some lb then
      match takeClose rest.tail with
      | some (name, tail) => data name ++ substAllF data f tail
      | none => c :: substAllF data f rest
    else c :: substAllF data f rest

/-- Substitution pass of fill_template (PLACEHOLDER_PATTERN.sub). -/
def substAll (data : List Char → List Char) (t : List Char) : List Char :=
  substAllF data t.length t

/-- Dictionary lookup data[key]; total with default empty (fill_template only
evaluates it for keys present in the dictionary). -/
def lookupV (values : List (List Char × List Char)) (name : List Char) :
    List Char :=
  match values.find? (fun kv => decide (kv.1 = name)) with
  | some kv => kv.2
  | none => []

/-- fill_template from src/placeholder_bot.py.  The ValueError carrying the
joined missing-name message is modelled as an error value carrying the list
of missing names in scan order. -/
def fill_template (t : List Char) (values : List (List Char × List Char)) :
    Except (List (List Char)) (List Char) :=
  let placeholders := detect_placeholders t
  let missing := placeholders.filter
    (fun ph => decide (ph ∉ values.map Prod.fst))
  if missing = [] then Except.ok (substAll (lookupV values) t)
  else Except.error missing

/-! ## html_processor.py — catalog and template scan -/

/-- The fixed builtin placeholder table PLACEHOLDERS, in source order: the
key is the braced placeholder string, the value is its required flag. -/
def PLACEHOLDERS : List (List Char × Bool) :=
  [ (wrapPh (strL "TITLE"), true)
  , (wrapPh (strL "SITE_NAME"), true)
  , (wrapPh (strL "META_DESCRIPTION"), true)
  , (wrapPh (strL "FEATURE_IMAGE"), true)
  , (wrapPh (strL "PUBLISHED_TIME"), true)
  , (wrapPh (strL "CATEGORY"), true)
  , (wrapPh (strL "LAST_MODIFIED"), false)
  , (wrapPh (strL "SITE_URL"), true)
  , (wrapPh (strL "ARTICLE_URL"), true)
  , (wrapPh (strL "CONTENT"), true)
  , (wrapPh (strL "FEATURE_IMAGE_ALT"), false)
  , (wrapPh (strL "READING_TIME"), false)
  , (wrapPh (strL "SOURCE_LIST"), false)
  , (wrapPh (strL "SLUG"), true)
  , (wrapPh (strL "POST_MONTH"), false) ]

/-- Character class of the scan regex used by find_placeholders_in_template:
capital letters A to Z and underscore. -/
def isNameChar (c : Char) : Bool := ('A' ≤ c && c ≤ 'Z') || c = '_'

/-- Fuel-indexed findall for the pattern consisting of a double open brace,
one or more name characters (greedy), and a double close brace; returns the
full braced matches.  After a greedy run of name characters the next
character is not a name character, so backtracking inside the run can never
reach a closing brace: a position matches exactly when the maximal run is
nonempty and immediately followed by the two closing braces. -/
def findAllUpperF : Nat → List Char → List (List Char)
  | 0, _ => []
  | _ + 1, [] => []
  | f + 1, c :: rest =>
    if c = lb ∧ rest.head? = some lb then
      let u := rest.tail.takeWhile isNameChar
      let r := rest.tail.dropWhile isNameChar
      if u ≠ [] ∧ r.head? = some rb ∧ r.tail.head? = some rb then
        (lb :: lb :: (u ++ [rb, rb])) :: findAllUpperF f r.tail.tail
      else findAllUpperF f rest
    else findAllUpperF f rest

/-- Braced placeholder tokens found in a template by the scan regex. -/
def foundPlaceholders (t : List Char) : List (List Char) :=
  (findAllUpperF t.length t).dedup

/-- Result record of find_placeholders_in_template. -/
structure ScanResult where
  required : List (List Char)
  optional : List (List Char)
  missing : List (List Char)
  unknown : List (List Char)
deriving DecidableEq

/-- find_placeholders_in_template from html_processor.py.  The source
iterates the catalog in table order appending to required, optional or
missing, then iterates the found set appending non-catalog names to unknown;
the found set is modelled as the deduplicated match list (Python set
iteration order is unspecified, so theorems only use membership in
unknown). -/
def find_placeholders_in_template (t : List Char) : ScanResult :=
  let found := foundPlaceholders t
  { required :=
      (PLACEHOLDERS.filter (fun p => decide (p.1 ∈ found) && p.2)).map Prod.fst
  , optional :=
      (PLACEHOLDERS.filter (fun p => decide (p.1 ∈ found) && !p.2)).map Prod.fst
  , missing :=
      (PLACEHOLDERS.filter (fun p => decide (p.1 ∉ found))).map Prod.fst
  , unknown :=
      found.filter (fun n => decide (n ∉ PLACEHOLDERS.map Prod.fst)) }

/-! ## html_processor.py — replace_placeholders -/

/-- Python value that is either a string or None (str of None is the text
None, which replace_placeholders explicitly avoids inserting). -/
inductive PyVal where
  | pstr (s : List Char)
  | pnone
deriving DecidableEq

/-- Python str() on the modelled values. -/
def pyStr : PyVal → List Char
  | PyVal.pstr s => s
  | PyVal.pnone => strL "None"

/-- Fuel-indexed model of Python str.replace: replace every non-overlapping
occurrence of pat by rep, scanning left to right.  All patterns built by
replace_placeholders are nonempty, so the empty-pattern behaviour of Python
(inserting between every character) is irrelevant; the model leaves the
string unchanged for an empty pattern. -/
def replaceAllF (pat rep : List Char) : Nat → List Char → List Char
  | 0, _ => []
  | _ + 1, [] => []
  | f + 1, c :: rest =>
    if pat ≠ [] ∧ pat.isPrefixOf (c :: rest) then
      rep ++ replaceAllF pat rep f ((c :: rest).drop pat.length)
    else c :: replaceAllF pat rep f rest

/-- Python str.replace over the list model. -/
def replaceAll (pat rep s : List Char) : List Char := replaceAllF pat rep s.length s

/-- One iteration of the replace_placeholders loop body for a key/value
pair: wrap the key in double braces unless it already starts with a double
open brace, then replace every occurrence with str(value), or with the empty
string when the value is None. -/
def replaceStep (result : List Char) (kv : List Char × PyVal) : List Char :=
  let pat := if (lb :: lb :: []).isPrefixOf kv.1 then kv.1
             else lb :: lb :: (kv.1 ++ [rb, rb])
  let rep := if kv.2 ≠ PyVal.pnone then pyStr kv.2 else []
  replaceAll pat rep result

/-- replace_placeholders from html_processor.py: sequential per-key
replacement over the values mapping, in mapping (insertion) order. -/
def replace_placeholders (t : List Char) (values : List (List Char × PyVal)) :
    List Char :=
  values.foldl replaceStep t

/-! ## Validators -/

/-- Python split on a comma separator (the split of the empty string is the
one-element list holding the empty string). -/
def splitComma : List Char → List (List Char)
  | [] => [[]]
  | c :: rest =>
    if c = ',' then [] :: splitComma rest
    else
      match splitComma rest with
      | seg :: segs => (c :: seg) :: segs
      | [] => [[c]]

/-- Python str.strip default whitespace set. -/
def isPySpace (c : Char) : Bool :=
  c = ' ' || c = '\t' || c = '\n' || c = '\r' || c = '\x0b' || c = '\x0c'

/-- Python str.strip. -/
def pyStrip (s : List Char) : List Char :=
  ((s.dropWhile isPySpace).reverse.dropWhile isPySpace).reverse

/-- The comma-split options list with each entry stripped, as both
validators build it. -/
def optionsEntries (o : List Char) : List (List Char) :=
  (splitComma o).map pyStrip

/-- validate_placeholder_value from html_processor.py.  The call to the
Python builtin float on the numero branch is an external library call and is
passed in as the predicate floatParses.  The options argument is None or a
string; the branch for the desplegable kind returns True when options is
falsy (None or empty). -/
def validate_placeholder_value (floatParses : List Char → Bool)
    (placeholder_type value : List Char) (options : Option (List Char)) :
    Bool :=
  if value = [] then true
  else if placeholder_type = strL "numero" then floatParses value
  else if placeholder_type = strL "url" then
    (strL "http://").isPrefixOf value || (strL "https://").isPrefixOf value
  else if placeholder_type = strL "desplegable" then
    match options with
    | none => true
    | some o => if o = [] then true else (optionsEntries o).contains value
  else true

/-- CustomPlaceholder.validate_value from models/placeholder.py.  It differs
from validate_placeholder_value only on the desplegable branch: a falsy
options attribute yields the empty allowed list, so every nonempty value is
rejected there. -/
def CustomPlaceholder.validate_value (floatParses : List Char → Bool)
    (placeholder_type value : List Char) (options : Option (List Char)) :
    Bool :=
  if value = [] then true
  else if placeholder_type = strL "numero" then floatParses value
  else if placeholder_type = strL "url" then
    (strL "http://").isPrefixOf value || (strL "https://").isPrefixOf value
  else if placeholder_type = strL "desplegable" then
    let optionsList :=
      match options with
      | none => []
      | some o => if o = [] then [] else optionsEntries o
    optionsList.contains value
  else true

/-! ## states.py — ConversationData and StateManager -/

/-- The State enumeration of core/states.py. -/
inductive State where
  | IDLE
  | REGISTERING
  | CONFIGURING_SITE
  | CONFIGURING_SFTP
  | UPLOADING_TEMPLATE
  | CREATING_CONTENT
  | UPLOADING_IMAGE
  | EDITING_CONTENT
  | MANAGING_CATEGORIES
  | MANAGING_FEATURED
  | CONFIRMING_PUBLISH
  | CONFIGURING_CUSTOM_PLACEHOLDER
deriving DecidableEq

/-- ConversationData: current state plus the scratch dictionary (scratch
values are modelled as strings; their contents are never inspected by the
engine). -/
structure ConversationData where
  state : State
  data : List (List Char × List Char)
deriving DecidableEq

/-- The durable user_states table keyed by telegram id, plus an availability
flag modelling whether SQL operations raise. -/
structure RowStore where
  rows : List (Nat × ConversationData)
  available : Bool
deriving DecidableEq

/-- Failure of the external row store. -/
inductive DBError where
  | unavailable
deriving DecidableEq

/-- In-memory registry of conversations keyed by telegram id. -/
structure StateManager where
  conversations : List (Nat × ConversationData)
deriving DecidableEq

/-- StateManager._save_to_db: inside a try block, upsert the row of the user
(if the user has a conversation); any exception is caught and logged, so the
store is returned unchanged on failure and no error propagates. -/
def saveToDb (sm : StateManager) (db : RowStore) (uid : Nat) : RowStore :=
  let attempt : Except DBError RowStore :=
    match sm.conversations.lookup uid with
    | some conv =>
        if db.available then
          Except.ok { db with rows := dinsert db.rows uid conv }
        else Except.error DBError.unavailable
    | none => Except.ok db
  match attempt with
  | Except.ok db1 => db1
  | Except.error _ => db

/-- StateManager.get_conversation: return the conversation of the user,
creating an IDLE conversation with empty scratch when absent. -/
def get_conversation (sm : StateManager) (uid : Nat) :
    StateManager × ConversationData :=
  match sm.conversations.lookup uid with
  | some c => (sm, c)
  | none =>
      let c : ConversationData := ⟨State.IDLE, []⟩
      (⟨dinsert sm.conversations uid c⟩, c)

/-- StateManager.get_state. -/
def get_state (sm : StateManager) (uid : Nat) : State :=
  (get_conversation sm uid).2.state

/-- StateManager.set_state: update the in-memory conversation first, then
call _save_to_db.  The Except result records whether an exception escapes to
the caller; no statement outside the try block of _save_to_db can raise, so
the function always returns ok. -/
def set_state (sm : StateManager) (db : RowStore) (uid : Nat) (st : State) :
    Except DBError (StateManager × RowStore) :=
  let pair := get_conversation sm uid
  let sm1 := pair.1
  let c1 := { pair.2 with state := st }
  let sm2 : StateManager := ⟨dinsert sm1.conversations uid c1⟩
  Except.ok (sm2, saveToDb sm2 db uid)

/-- StateManager.set_data: update the scratch dictionary in memory first,
then call _save_to_db; as with set_state no exception can escape. -/
def set_data (sm : StateManager) (db : RowStore) (uid : Nat)
    (key val : List Char) : Except DBError (StateManager × RowStore) :=
  let pair := get_conversation sm uid
  let sm1 := pair.1
  let c1 := { pair.2 with data := dinsert pair.2.data key val }
  let sm2 : StateManager := ⟨dinsert sm1.conversations uid c1⟩
  Except.ok (sm2, saveToDb sm2 db uid)

/-- User record as consulted by the startup reload (models/user.py). -/
structure UserRec where
  status : List Char
deriving DecidableEq

/-- User.is_active from models/user.py. -/
def UserRec.isActive (u : UserRec) : Bool := u.status = strL "active"

/-- Loop body of StateManager._initialize_from_db, on the branch where the
table already exists: the accumulator carries the in-memory registry being
built and the current contents of the table; a row whose user exists and is
active is restored into the registry (dict assignment), any other row is
deleted from the table.  Rows are typed per the row-store interface (state
enum plus scratch). -/
def initStep (getUser : Nat → Option UserRec)
    (acc : List (Nat × ConversationData) × List (Nat × ConversationData))
    (row : Nat × ConversationData) :
    List (Nat × ConversationData) × List (Nat × ConversationData) :=
  match getUser row.1 with
  | some u =>
      if u.isActive then (dinsert acc.1 row.1 row.2, acc.2)
      else (acc.1, acc.2.filter (fun r => decide (r.1 ≠ row.1)))
  | none => (acc.1, acc.2.filter (fun r => decide (r.1 ≠ row.1)))

/-- The reload itself: fold the per-row step over the fetched rows, starting
from an empty registry and the full table. -/
def initialize_from_db (getUser : Nat → Option UserRec) (db : RowStore) :
    StateManager × RowStore :=
  let out := db.rows.foldl (initStep getUser) ([], db.rows)
  (⟨out.1⟩, { db with rows := out.2 })

/-! ## handlers.py — draft commit of the custom-placeholder sub-flow -/

/-- One drafted custom-placeholder configuration record. -/
structure Draft where
  placeholder_name : List Char
  display_name : List Char
  placeholder_type : List Char
  options : Option (List Char)
deriving DecidableEq

/-- The commit branch of configure_next_custom_placeholder, reached when the
index has passed the end of the unknown-placeholder list.  Arguments: the
site of the user (None when the user has no site), a predicate stating which
creations succeed (site.add_custom_placeholder may raise or return a falsy
result; both count as failure and are skipped after logging), the existing
custom_placeholders table (rows tagged by site id), and the drafted records.
Returns the resulting table and the reported outcome: some (M, N) for the
message M of N configured, none for the no-placeholders message.
commitStep is the body of the per-draft creation loop: on success the new
record is inserted and the success count incremented, on failure the loop
simply continues. -/
def commitStep (site : Nat) (createOk : Draft → Bool)
    (acc : List (Nat × Draft) × Nat) (d : Draft) : List (Nat × Draft) × Nat :=
  if createOk d then (acc.1 ++ [(site, d)], acc.2 + 1) else acc

/-- The commit itself: delete the existing rows of the site, then run the
per-draft creation loop. -/
def commitCustomPlaceholders (siteOpt : Option Nat)
    (createOk : Draft → Bool) (table : List (Nat × Draft))
    (drafts : List Draft) : List (Nat × Draft) × Option (Nat × Nat) :=
  match siteOpt with
  | some site =>
      if drafts ≠ [] then
        let cleared := table.filter (fun r => decide (r.1 ≠ site))
        let out := drafts.foldl (commitStep site createOk) (cleared, 0)
        (out.1, some (out.2, drafts.length))
      else (table, none)
  | none => (table, none)

/-! ## Helper lemmas -/

theorem mem_of_contains {l : List (List Char)} {a : List Char}
    (h : l.contains a = true) : a ∈ l := List.elem_iff.mp h

theorem contains_of_mem {l : List (List Char)} {a : List Char}
    (h : a ∈ l) : l.contains a = true := List.elem_iff.mpr h

/-! ## C1 — fill_template succeeds iff no referenced name is missing, and
the error lists exactly the missing referenced names -/

/-- C1.  For every template t and values mapping, fill_template succeeds
exactly when every placeholder name referenced in t (per the findall scan)
is a key of values; when it fails, the raised missing list contains a name
exactly when that name is referenced in t and has no key in values. -/
theorem fill_template_missing_complete (t : List Char)
    (values : List (List Char × List Char)) :
    ((∃ s, fill_template t values = Except.ok s) ↔
       ∀ n ∈ detect_placeholders t, n ∈ values.map Prod.fst) ∧
    (∀ l, fill_template t values = Except.error l →
       ∀ n, n ∈ l ↔ (n ∈ detect_placeholders t ∧ n ∉ values.map Prod.fst)) := by
  unfold fill_template
  constructor
  · by_cases h : (detect_placeholders t).filter
        (fun ph => decide (ph ∉ values.map Prod.fst)) = []
    · simp only [h, if_pos]
      rw [List.filter_eq_nil_iff] at h
      constructor
      · intro _ n hn
        by_contra hn2
        exact h n hn (by simpa using hn2)
      · intro _; exact ⟨_, rfl⟩
    · simp only [h, if_neg]
      constructor
      · rintro ⟨s, hs⟩; cases hs
      · intro hall
        exact absurd (List.filter_eq_nil_iff.mpr
          (fun a ha => by simpa using hall a ha)) h
  · intro l hl n
    by_cases h : (detect_placeholders t).filter
        (fun ph => decide (ph ∉ values.map Prod.fst)) = []
    · simp only [h, if_pos] at hl; cases hl
    · simp only [h, if_neg] at hl
      injection hl with hl
      subst hl
      simp [List.mem_filter]

/-- Witness for C1 at the template with references A and B and a values
mapping that only supplies A. -/
theorem fill_template_missing_complete_witness :
    strL "B" ∈ detect_placeholders (wrapPh (strL "A") ++ wrapPh (strL "B")) ∧
    strL "B" ∉ [(strL "A", strL "x")].map Prod.fst :=
  ((fill_template_missing_complete (wrapPh (strL "A") ++ wrapPh (strL "B"))
    [(strL "A", strL "x")]).2 [strL "B"] (by rfl) (strL "B")).mp (by decide)

/-! ## C9 — the builtin catalog counts -/

/-- C9 counterexample.  The builtin table does not classify into 8 required
entries: it marks 10 entries required (SITE_NAME and SLUG, called
auto-generated by the specification, carry required = true and the table has
no auto-generated classification). -/
theorem placeholders_not_eight_required :
    (PLACEHOLDERS.filter (fun p => p.2)).length ≠ 8 := by decide

/-- C9 amended.  The builtin catalog is a fixed 15-entry table with 10
entries marked required — among them SITE_NAME and SLUG — and 5 entries
marked optional; it carries no auto-generated classification. -/
theorem placeholders_catalog_counts :
    PLACEHOLDERS.length = 15 ∧
    (PLACEHOLDERS.filter (fun p => p.2)).length = 10 ∧
    (PLACEHOLDERS.filter (fun p => !p.2)).length = 5 ∧
    (wrapPh (strL "SITE_NAME"), true) ∈ PLACEHOLDERS ∧
    (wrapPh (strL "SLUG"), true) ∈ PLACEHOLDERS := by decide

/-! ## C2 — the missing classification -/

/-- C2 counterexample.  LAST_MODIFIED is an optional builtin (required =
false in the table), yet scanning the empty template reports it missing: a
name that is not a required builtin can appear in missing, and missing is
not empty even when every required builtin is present. -/
theorem scan_missing_contains_optional :
    (wrapPh (strL "LAST_MODIFIED"), false) ∈ PLACEHOLDERS ∧
    wrapPh (strL "LAST_MODIFIED") ∈ (find_placeholders_in_template []).missing := by
  decide

/-- C2 amended.  For every template t, missing is exactly the set of all
catalog names — required or optional — absent from the found token set:
a catalog entry is in missing iff its name is not found in t, and every
member of missing is a catalog name. -/
theorem scan_missing_iff_absent (t : List Char) :
    (∀ name req, (name, req) ∈ PLACEHOLDERS →
       (name ∈ (find_placeholders_in_template t).missing ↔
         name ∉ foundPlaceholders t)) ∧
    (∀ n ∈ (find_placeholders_in_template t).missing,
       n ∈ PLACEHOLDERS.map Prod.fst) := by
  constructor
  · intro name req hmem
    unfold find_placeholders_in_template
    simp only [List.mem_map, List.mem_filter]
    constructor
    · rintro ⟨p, ⟨_, hp⟩, hname⟩
      subst hname
      simpa using hp
    · intro habs
      exact ⟨(name, req), ⟨hmem, by simpa using habs⟩, rfl⟩
  · intro n hn
    unfold find_placeholders_in_template at hn
    simp only [List.mem_map, List.mem_filter] at hn
    obtain ⟨p, ⟨hp, _⟩, hname⟩ := hn
    exact List.mem_map.mpr ⟨p, hp, hname⟩

/-- Witness for C2 amended: TITLE is a catalog entry and is reported
missing for the empty template, where it is indeed not found. -/
theorem scan_missing_iff_absent_witness :
    wrapPh (strL "TITLE") ∈ (find_placeholders_in_template []).missing ↔
      wrapPh (strL "TITLE") ∉ foundPlaceholders [] :=
  (scan_missing_iff_absent []).1 (wrapPh (strL "TITLE")) true (by decide)


/-- Bridge between Bool contains and list membership. -/
theorem contains_eq_true_iff (l : List (List Char)) (a : List Char) :
    l.contains a = true ↔ a ∈ l := ⟨mem_of_contains, contains_of_mem⟩

/-! ## C4 — enumerated validation -/

/-- C4 counterexample.  With an empty options string, a nonempty value is
accepted by validate_placeholder_value (the claim requires the empty allowed
set to reject it); and a value that only matches an option after trimming is
rejected (the claim requires the value to be trimmed before comparison). -/
theorem validate_enum_counterexample :
    validate_placeholder_value (fun _ => false) (strL "desplegable")
      (strL "x") (some []) = true ∧
    validate_placeholder_value (fun _ => false) (strL "desplegable")
      (strL " a") (some (strL "a")) = false := by decide

/-- C4 amended.  For the enumerated kind: validate_placeholder_value accepts
exactly the empty value, any value when options is absent or empty, and a
value equal — untrimmed, case-sensitively — to one comma-split and
entry-trimmed option; CustomPlaceholder.validate_value instead treats absent
or empty options as the empty allowed set, rejecting every nonempty
value. -/
theorem validate_enum_characterization (fp : List Char → Bool)
    (v : List Char) (o : Option (List Char)) :
    (validate_placeholder_value fp (strL "desplegable") v o = true ↔
       (v = [] ∨ o = none ∨ o = some [] ∨ v ∈ optionsEntries (o.getD []))) ∧
    (CustomPlaceholder.validate_value fp (strL "desplegable") v o = true ↔
       (v = [] ∨ ∃ s, o = some s ∧ s ≠ [] ∧ v ∈ optionsEntries s)) := by
  have hnum : strL "desplegable" ≠ strL "numero" := by decide
  have hurl : strL "desplegable" ≠ strL "url" := by decide
  unfold validate_placeholder_value CustomPlaceholder.validate_value
  by_cases hv : v = []
  · simp [hv]
  · cases o with
    | none => simp [hv, hnum, hurl]
    | some s =>
        by_cases hs : s = []
        · simp [hv, hnum, hurl, hs]
        · simp [hv, hnum, hurl, hs, contains_eq_true_iff]

/-! ## Dictionary lookup lemmas for dinsert -/

theorem lookup_map_replace {α : Type} (k : Nat) (v : α) :
    ∀ l : List (Nat × α), l.any (fun kv => decide (kv.1 = k)) = true →
      List.lookup k (l.map (fun kv => if kv.1 = k then (k, v) else kv)) = some v := by
  intro l
  induction l with
  | nil => intro h; simp at h
  | cons x xs ih =>
    obtain ⟨a, b⟩ := x
    intro h
    by_cases hx : a = k
    · rw [List.map_cons, if_pos hx]
      simp [List.lookup]
    · rw [List.map_cons, if_neg hx, List.lookup]
      have hne : (k == a) = false := by
        simp [Ne.symm hx]
      simp only [hne]
      refine ih ?_
      simp only [List.any_cons, Bool.or_eq_true, decide_eq_true_eq] at h
      rcases h with h | h
      · exact absurd h hx
      · exact h

theorem lookup_map_replace_ne {α : Type} (k k2 : Nat) (v : α) (hne : k2 ≠ k) :
    ∀ l : List (Nat × α),
      List.lookup k2 (l.map (fun kv => if kv.1 = k then (k, v) else kv)) =
        List.lookup k2 l := by
  intro l
  induction l with
  | nil => rfl
  | cons x xs ih =>
    obtain ⟨a, b⟩ := x
    by_cases hx : a = k
    · rw [List.map_cons, if_pos hx, List.lookup, List.lookup]
      have h1 : (k2 == k) = false := by simp [hne]
      have h2 : (k2 == a) = false := by
        rw [hx]; exact h1
      simp only [h1, h2, ih]
    · rw [List.map_cons, if_neg hx, List.lookup, List.lookup]
      by_cases h2 : k2 = a
      · simp [h2]
      · have h2f : (k2 == a) = false := by simp [h2]
        simp only [h2f, ih]

theorem lookup_append_single {α : Type} (k : Nat) (v : α) :
    ∀ l : List (Nat × α), l.any (fun kv => decide (kv.1 = k)) = false →
      List.lookup k (l ++ [(k, v)]) = some v := by
  intro l
  induction l with
  | nil => intro _; simp [List.lookup]
  | cons x xs ih =>
    obtain ⟨a, b⟩ := x
    intro h
    simp only [List.any_cons, Bool.or_eq_false_iff, decide_eq_false_iff_not] at h
    rw [List.cons_append, List.lookup]
    have hne : (k == a) = false := by
      simp [Ne.symm h.1]
    simp only [hne]
    exact ih h.2

theorem lookup_append_single_ne {α : Type} (k k2 : Nat) (v : α) (hne : k2 ≠ k) :
    ∀ l : List (Nat × α),
      List.lookup k2 (l ++ [(k, v)]) = List.lookup k2 l := by
  intro l
  induction l with
  | nil =>
    rw [List.nil_append, List.lookup]
    have h1 : (k2 == k) = false := by simp [hne]
    simp [h1, List.lookup]
  | cons x xs ih =>
    obtain ⟨a, b⟩ := x
    rw [List.cons_append, List.lookup, List.lookup]
    by_cases h2 : k2 = a
    · simp [h2]
    · have h2f : (k2 == a) = false := by simp [h2]
      simp only [h2f, ih]

/-- Looking up the inserted key after a dict assignment yields the new
value. -/
theorem lookup_dinsert_self {α : Type} (l : List (Nat × α)) (k : Nat) (v : α) :
    List.lookup k (dinsert l k v) = some v := by
  unfold dinsert
  by_cases h : l.any (fun kv => decide (kv.1 = k)) = true
  · simp only [h, if_pos]
    exact lookup_map_replace k v l h
  · have hf : l.any (fun kv => decide (kv.1 = k)) = false := by
      cases hany : l.any (fun kv => decide (kv.1 = k)) with
      | false => rfl
      | true => exact absurd hany h
    simp only [hf, Bool.false_eq_true, if_neg, not_false_iff]
    exact lookup_append_single k v l hf

/-- A dict assignment leaves the binding of every other key unchanged. -/
theorem lookup_dinsert_ne {α : Type} (l : List (Nat × α)) (k k2 : Nat) (v : α)
    (hne : k2 ≠ k) : List.lookup k2 (dinsert l k v) = List.lookup k2 l := by
  unfold dinsert
  by_cases h : l.any (fun kv => decide (kv.1 = k)) = true
  · simp only [h, if_pos]
    exact lookup_map_replace_ne k k2 v hne l
  · have hf : l.any (fun kv => decide (kv.1 = k)) = false := by
      cases hany : l.any (fun kv => decide (kv.1 = k)) with
      | false => rfl
      | true => exact absurd hany h
    simp only [hf, Bool.false_eq_true, if_neg, not_false_iff]
    exact lookup_append_single_ne k k2 v hne l

/-! ## C3 — behaviour of set_phase under a row-store failure -/

/-- C3 counterexample.  Starting from an empty manager (previous phase of
user 7 is IDLE) and an unavailable row store, set_state returns ok — the
persistence failure does not propagate to the caller — and the observable
phase has changed to the new phase REGISTERING rather than staying IDLE. -/
theorem set_state_failure_counterexample :
    get_state (⟨[]⟩ : StateManager) 7 = State.IDLE ∧
    set_state (⟨[]⟩ : StateManager) (⟨[], false⟩ : RowStore) 7
        State.REGISTERING =
      Except.ok (⟨[(7, ⟨State.REGISTERING, []⟩)]⟩, (⟨[], false⟩ : RowStore)) ∧
    get_state (⟨[(7, ⟨State.REGISTERING, []⟩)]⟩ : StateManager) 7 =
      State.REGISTERING ∧
    State.REGISTERING ≠ State.IDLE := by
  refine ⟨rfl, rfl, rfl, by decide⟩

/-- On an unavailable store _save_to_db swallows the exception and returns
the store unchanged. -/
theorem saveToDb_unavailable (sm : StateManager)
    (rows : List (Nat × ConversationData)) (uid : Nat) :
    saveToDb sm ⟨rows, false⟩ uid = ⟨rows, false⟩ := by
  unfold saveToDb
  cases h : sm.conversations.lookup uid <;> simp [h]

/-- C3 amended.  When the row store fails during set_phase or set_value the
exception is caught and logged inside _save_to_db: the call returns ok (no
error propagates to the caller), the in-memory transition is already
committed — get_phase returns the new phase — and the durable row is left
unchanged. -/
theorem set_state_failure_behavior (sm : StateManager)
    (rows : List (Nat × ConversationData)) (uid : Nat) (st : State)
    (key val : List Char) :
    (∃ out, set_state sm ⟨rows, false⟩ uid st = Except.ok out ∧
       get_state out.1 uid = st ∧ out.2 = ⟨rows, false⟩) ∧
    (∃ out, set_data sm ⟨rows, false⟩ uid key val = Except.ok out ∧
       out.2 = ⟨rows, false⟩) := by
  constructor
  · refine ⟨_, rfl, ?_, ?_⟩
    · show get_state ⟨dinsert _ uid _⟩ uid = st
      unfold get_state get_conversation
      rw [lookup_dinsert_self]
    · exact saveToDb_unavailable _ _ _
  · refine ⟨_, rfl, ?_⟩
    exact saveToDb_unavailable _ _ _

/-- Witness for C3 amended at a concrete manager, store, user and phase. -/
theorem set_state_failure_behavior_witness :
    ∃ out, set_state (⟨[(3, ⟨State.IDLE, []⟩)]⟩ : StateManager)
        (⟨[(3, ⟨State.IDLE, []⟩)], false⟩ : RowStore) 3
        State.CREATING_CONTENT = Except.ok out ∧
      get_state out.1 3 = State.CREATING_CONTENT ∧
      out.2 = (⟨[(3, ⟨State.IDLE, []⟩)], false⟩ : RowStore) :=
  (set_state_failure_behavior ⟨[(3, ⟨State.IDLE, []⟩)]⟩
    [(3, ⟨State.IDLE, []⟩)] 3 State.CREATING_CONTENT [] []).1

/-! ## C5 — startup reload purges non-active users -/

/-- Equation for the reload step on a row of an unknown user. -/
theorem initStep_none (getUser : Nat → Option UserRec)
    (acc : List (Nat × ConversationData) × List (Nat × ConversationData))
    (row : Nat × ConversationData) (h : getUser row.1 = none) :
    initStep getUser acc row =
      (acc.1, acc.2.filter (fun r => decide (r.1 ≠ row.1))) := by
  simp [initStep, h]

/-- Equation for the reload step on a row of an active user. -/
theorem initStep_active (getUser : Nat → Option UserRec)
    (acc : List (Nat × ConversationData) × List (Nat × ConversationData))
    (row : Nat × ConversationData) (u : UserRec) (h : getUser row.1 = some u)
    (ha : u.isActive = true) :
    initStep getUser acc row = (dinsert acc.1 row.1 row.2, acc.2) := by
  simp [initStep, h, ha]

/-- Equation for the reload step on a row of a non-active user. -/
theorem initStep_inactive (getUser : Nat → Option UserRec)
    (acc : List (Nat × ConversationData) × List (Nat × ConversationData))
    (row : Nat × ConversationData) (u : UserRec) (h : getUser row.1 = some u)
    (ha : u.isActive = false) :
    initStep getUser acc row =
      (acc.1, acc.2.filter (fun r => decide (r.1 ≠ row.1))) := by
  simp [initStep, h, ha]

/-- The surviving-table component of the reload fold only shrinks: it is
always a subset of the table the fold started from. -/
theorem init_fold_rows_subset (getUser : Nat → Option UserRec) :
    ∀ (rows : List (Nat × ConversationData))
      (acc1 acc2 : List (Nat × ConversationData)),
      (rows.foldl (initStep getUser) (acc1, acc2)).2 ⊆ acc2 := by
  intro rows
  induction rows with
  | nil => intro acc1 acc2 x hx; simpa using hx
  | cons r rs ih =>
    intro acc1 acc2
    rw [List.foldl_cons]
    have hstep : (initStep getUser (acc1, acc2) r).2 ⊆ acc2 := by
      cases hgu : getUser r.1 with
      | none =>
        rw [initStep_none getUser _ r hgu]
        exact (List.filter_sublist _).subset
      | some u =>
        cases hact : u.isActive with
        | true =>
          rw [initStep_active getUser _ r u hgu hact]
          exact fun x hx => hx
        | false =>
          rw [initStep_inactive getUser _ r u hgu hact]
          exact (List.filter_sublist _).subset
    exact fun x hx => hstep (ih _ _ hx)

/-- During the reload fold, a user reported non-active (or unknown) is never
inserted into the in-memory registry. -/
theorem init_fold_conv_none (getUser : Nat → Option UserRec) (uid : Nat)
    (h : ∀ u, getUser uid = some u → u.isActive = false) :
    ∀ (rows : List (Nat × ConversationData))
      (acc1 acc2 : List (Nat × ConversationData)),
      List.lookup uid acc1 = none →
      List.lookup uid (rows.foldl (initStep getUser) (acc1, acc2)).1 = none := by
  intro rows
  induction rows with
  | nil => intro acc1 acc2 hl; simpa using hl
  | cons r rs ih =>
    intro acc1 acc2 hl
    rw [List.foldl_cons]
    have hstep : List.lookup uid (initStep getUser (acc1, acc2) r).1 = none := by
      cases hgu : getUser r.1 with
      | none =>
        rw [initStep_none getUser _ r hgu]
        exact hl
      | some u =>
        cases hact : u.isActive with
        | true =>
          have hne : uid ≠ r.1 := by
            intro he
            rw [← he] at hgu
            rw [h u hgu] at hact
            cases hact
          rw [initStep_active getUser _ r u hgu hact]
          show List.lookup uid (dinsert acc1 r.1 r.2) = none
          rw [lookup_dinsert_ne _ _ _ _ hne]
          exact hl
        | false =>
          rw [initStep_inactive getUser _ r u hgu hact]
          exact hl
    exact ih (initStep getUser (acc1, acc2) r).1
      (initStep getUser (acc1, acc2) r).2 hstep

/-- Once the reload fold has processed a row belonging to a non-active or
unknown user, no row of that user survives in the table. -/
theorem init_fold_rows_deleted (getUser : Nat → Option UserRec) (uid : Nat)
    (h : ∀ u, getUser uid = some u → u.isActive = false) :
    ∀ (rows : List (Nat × ConversationData))
      (acc1 acc2 : List (Nat × ConversationData)) (c : ConversationData),
      (uid, c) ∈ rows →
      ∀ r2 ∈ (rows.foldl (initStep getUser) (acc1, acc2)).2, r2.1 ≠ uid := by
  intro rows
  induction rows with
  | nil => intro _ _ c hc; cases hc
  | cons r rs ih =>
    intro acc1 acc2 c hc r2 hr2
    rw [List.foldl_cons] at hr2
    by_cases hru : r.1 = uid
    · have hstep2 : ∀ x ∈ (initStep getUser (acc1, acc2) r).2, x.1 ≠ uid := by
        cases hgu : getUser r.1 with
        | none =>
          rw [initStep_none getUser _ r hgu]
          intro x hx
          have hx2 := (List.mem_filter.mp hx).2
          rw [decide_eq_true_eq] at hx2
          rw [← hru]
          exact hx2
        | some u =>
          have hua : u.isActive = false := h u (by rw [hru] at hgu; exact hgu)
          rw [initStep_inactive getUser _ r u hgu hua]
          intro x hx
          have hx2 := (List.mem_filter.mp hx).2
          rw [decide_eq_true_eq] at hx2
          rw [← hru]
          exact hx2
      exact hstep2 r2 (init_fold_rows_subset getUser rs _ _ hr2)
    · have hc2 : (uid, c) ∈ rs := by
        rcases List.mem_cons.mp hc with he | hm
        · exact absurd (congrArg Prod.fst he).symm hru
        · exact hm
      exact ih _ _ c hc2 r2 hr2

/-- C5.  After the startup reload, a user whose status collaborator reports
a non-active status — or who is unknown to it — has no conversation
restored in memory, and no durable row of that user survives in the
store. -/
theorem initialize_from_db_purges (getUser : Nat → Option UserRec)
    (db : RowStore) (uid : Nat)
    (h : ∀ u, getUser uid = some u → u.isActive = false) :
    List.lookup uid (initialize_from_db getUser db).1.conversations = none ∧
    ∀ r ∈ (initialize_from_db getUser db).2.rows, r.1 ≠ uid := by
  constructor
  · exact init_fold_conv_none getUser uid h db.rows [] db.rows rfl
  · intro r hr
    by_cases hex : ∃ c, (uid, c) ∈ db.rows
    · obtain ⟨c, hc⟩ := hex
      exact init_fold_rows_deleted getUser uid h db.rows [] db.rows c hc r hr
    · have hmem : r ∈ db.rows := init_fold_rows_subset getUser db.rows [] db.rows hr
      intro he
      exact hex ⟨r.2, he ▸ (show (r.1, r.2) ∈ db.rows from hmem)⟩

/-- A status collaborator that knows user 5 as blocked and nobody else. -/
def blockedUser : Nat → Option UserRec :=
  fun n => if n = 5 then some ⟨strL "blocked"⟩ else none

/-- Witness for C5 at a store holding one row for the blocked user 5. -/
theorem initialize_from_db_purges_witness :
    List.lookup 5 (initialize_from_db blockedUser
        ⟨[(5, ⟨State.REGISTERING, []⟩)], true⟩).1.conversations = none ∧
    ∀ r ∈ (initialize_from_db blockedUser
        ⟨[(5, ⟨State.REGISTERING, []⟩)], true⟩).2.rows, r.1 ≠ 5 := by
  apply initialize_from_db_purges
  intro u hu
  unfold blockedUser at hu
  rw [if_pos rfl] at hu
  injection hu with hu
  rw [← hu]
  decide

/-! ## C8 — the draft-commit loop -/

/-- Closed form of the per-draft creation loop: the records of the
successful drafts are appended in order, and the count is the number of
successes. -/
theorem commit_fold_eq (site : Nat) (createOk : Draft → Bool) :
    ∀ (drafts : List Draft) (acc : List (Nat × Draft) × Nat),
      drafts.foldl (commitStep site createOk) acc =
        (acc.1 ++ (drafts.filter createOk).map (fun d => (site, d)),
         acc.2 + (drafts.filter createOk).length) := by
  intro drafts
  induction drafts with
  | nil => intro acc; simp
  | cons d ds ih =>
    intro acc
    rw [List.foldl_cons]
    by_cases hd : createOk d = true
    · rw [show commitStep site createOk acc d = (acc.1 ++ [(site, d)], acc.2 + 1) from by
        unfold commitStep; rw [if_pos hd]]
      rw [ih]
      rw [List.filter_cons_of_pos hd]
      simp [List.append_assoc]
      omega
    · rw [show commitStep site createOk acc d = acc from by
        unfold commitStep; rw [if_neg hd]]
      rw [ih, List.filter_cons_of_neg hd]

/-- C8 amended (main equation).  With a site present and a nonempty draft
list, the commit replaces the site rows of the table by the successful
drafts and reports the success count out of the drafted total. -/
theorem commit_main_eq (site : Nat) (createOk : Draft → Bool)
    (table : List (Nat × Draft)) (drafts : List Draft) (h : drafts ≠ []) :
    commitCustomPlaceholders (some site) createOk table drafts =
      (table.filter (fun r => decide (r.1 ≠ site)) ++
         (drafts.filter createOk).map (fun d => (site, d)),
       some ((drafts.filter createOk).length, drafts.length)) := by
  have hfold := commit_fold_eq site createOk drafts
    (table.filter (fun r => decide (r.1 ≠ site)), 0)
  simp only [commitCustomPlaceholders]
  rw [if_pos h, hfold]
  simp

/-- C8 amended.  Provided the user has a site and at least one record was
drafted: the commit deletes all existing custom placeholders of the site;
each successful creation lands in the table regardless of failures among the
other drafts (no abort); the site rows afterwards are exactly the successful
drafts; and the reported outcome counts the successes out of the drafted
total. -/
theorem commitCustomPlaceholders_spec (site : Nat) (createOk : Draft → Bool)
    (table : List (Nat × Draft)) (drafts : List Draft) (h : drafts ≠ []) :
    (commitCustomPlaceholders (some site) createOk table drafts).2 =
        some ((drafts.filter createOk).length, drafts.length) ∧
    (∀ d ∈ drafts, createOk d = true →
        (site, d) ∈ (commitCustomPlaceholders (some site) createOk table drafts).1) ∧
    (∀ r ∈ (commitCustomPlaceholders (some site) createOk table drafts).1,
        r.1 = site → r.2 ∈ drafts.filter createOk) := by
  rw [commit_main_eq site createOk table drafts h]
  refine ⟨rfl, ?_, ?_⟩
  · intro d hd hcd
    exact List.mem_append.mpr (Or.inr (List.mem_map.mpr
      ⟨d, List.mem_filter.mpr ⟨hd, hcd⟩, rfl⟩))
  · intro r hr hrs
    rcases List.mem_append.mp hr with hl | hrm
    · have hfl := (List.mem_filter.mp hl).2
      rw [decide_eq_true_eq] at hfl
      exact absurd hrs hfl
    · obtain ⟨d, hd, hde⟩ := List.mem_map.mp hrm
      rw [← hde]
      exact hd

/-- A concrete draft record used in witnesses and counterexamples. -/
def draftFoo : Draft := ⟨strL "FOO", strL "Foo label", strL "texto", none⟩

/-- C8 counterexample.  When the sub-flow reaches the end of the unknown
list with an empty draft list (every placeholder skipped), the code deletes
nothing: an existing custom placeholder of the site survives the commit, and
no success count is reported, contradicting the unconditional delete of the
claim. -/
theorem commit_empty_drafts_counterexample :
    commitCustomPlaceholders (some 1) (fun _ => true) [(1, draftFoo)] [] =
      ([(1, draftFoo)], none) ∧
    (1, draftFoo) ∈
      (commitCustomPlaceholders (some 1) (fun _ => true) [(1, draftFoo)] []).1 := by
  constructor
  · rfl
  · decide

/-- Witness for C8 amended: one drafted record whose creation fails is
reported as zero successes out of one. -/
theorem commitCustomPlaceholders_spec_witness :
    (commitCustomPlaceholders (some 2) (fun _ => false) [] [draftFoo]).2 =
      some (0, 1) := by
  have h := (commitCustomPlaceholders_spec 2 (fun _ => false) [] [draftFoo]
    (by simp)).1
  simpa using h

/-! ## C7 — single-pass literal substitution -/

/-- Decomposition of a successful non-greedy close search: the scanned text
is the content followed by the closing double brace and the remaining
text. -/
theorem takeClose_eq : ∀ (r p t : List Char),
    takeClose r = some (p, t) → r = p ++ rb :: rb :: t := by
  intro r
  induction r with
  | nil => intro p t h; simp [takeClose] at h
  | cons c rest ih =>
    intro p t h
    cases rest with
    | nil => simp [takeClose] at h
    | cons d rest2 =>
      rw [show takeClose (c :: d :: rest2) =
            (if c = rb ∧ d = rb then some ([], rest2)
             else if c = '\n' then none
             else (takeClose (d :: rest2)).map (fun pt => (c :: pt.1, pt.2)))
          from rfl] at h
      by_cases h1 : c = rb ∧ d = rb
      · rw [if_pos h1] at h
        injection h with h
        injection h with hp ht
        rw [← hp, ← ht, h1.1, h1.2]
        rfl
      · rw [if_neg h1] at h
        by_cases h2 : c = '\n'
        · rw [if_pos h2] at h
          cases h
        · rw [if_neg h2] at h
          rw [Option.map_eq_some'] at h
          obtain ⟨⟨p2, t2⟩, hsome, hmap⟩ := h
          injection hmap with hp ht
          have hdec := ih p2 t2 hsome
          rw [← hp, ← ht, List.cons_append]
          rw [← hdec]

/-- Length consequence of a successful close search. -/
theorem takeClose_length {r p t : List Char} (h : takeClose r = some (p, t)) :
    r.length = p.length + 2 + t.length := by
  rw [takeClose_eq r p t h]
  simp [List.length_append]
  omega

/-- An infix of a list is an infix of any left-extension of it. -/
theorem infix_append_left (cs : List Char) {l b : List Char}
    (h : l <:+: b) : l <:+: cs ++ b := by
  obtain ⟨u, v, huv⟩ := h
  exact ⟨cs ++ u, v, by rw [← huv]; simp [List.append_assoc]⟩

/-- Fuel-level statement: every value substituted for a found placeholder
occurs verbatim (as a contiguous infix) in the substitution output. -/
theorem substAllF_infix (data : List Char → List Char) :
    ∀ (f : Nat) (t : List Char), t.length ≤ f →
      ∀ n ∈ findAllF f t, data n <:+: substAllF data f t := by
  intro f
  induction f with
  | zero =>
    intro t _ n hn
    simp [findAllF] at hn
  | succ f ih =>
    intro t ht n hn
    match t with
    | [] => simp [findAllF] at hn
    | c :: rest =>
      have hrest : rest.length ≤ f := by
        simp [List.length_cons] at ht
        omega
      by_cases hc : c = lb ∧ rest.head? = some lb
      · cases htc : takeClose rest.tail with
        | some pt =>
          obtain ⟨name, tail⟩ := pt
          have htail : tail.length ≤ f := by
            have h1 := takeClose_length htc
            have h2 : rest.tail.length ≤ rest.length := by
              cases rest <;> simp
            omega
          simp only [findAllF, hc, and_self, if_true, htc] at hn
          simp only [substAllF, hc, and_self, if_true, htc]
          rcases List.mem_cons.mp hn with he | hm
          · rw [he]
            exact (List.prefix_append _ _).isInfix
          · exact infix_append_left _ (ih tail htail n hm)
        | none =>
          simp only [findAllF, hc, and_self, if_true, htc] at hn
          simp only [substAllF, hc, and_self, if_true, htc]
          exact List.infix_cons (ih rest hrest n hn)
      · simp only [findAllF, hc, if_false] at hn
        simp only [substAllF, hc, if_false]
        exact List.infix_cons (ih rest hrest n hn)

/-- C7 amended.  The substitution pass of fill_template is a single literal
pass: on success fill_template returns exactly the output of that pass, and
every substituted value — even one containing a placeholder token of
another key — appears verbatim as a contiguous infix of the output, never
re-scanned.  (replace_placeholders, by contrast, substitutes sequentially
per key; see the counterexample.) -/
theorem fill_template_single_pass :
    (∀ (t : List Char) (values : List (List Char × List Char)) out,
        fill_template t values = Except.ok out →
        out = substAll (lookupV values) t) ∧
    (∀ (data : List Char → List Char) (t : List Char) (n : List Char),
        n ∈ detect_placeholders t → data n <:+: substAll data t) := by
  constructor
  · intro t values out h
    unfold fill_template at h
    by_cases hm : (detect_placeholders t).filter
        (fun ph => decide (ph ∉ values.map Prod.fst)) = []
    · simp only [hm, if_pos] at h
      injection h with h
      exact h.symm
    · simp only [hm, if_neg] at h
      cases h
  · intro data t n hn
    exact substAllF_infix data t.length t (Nat.le_refl _) n hn

/-- Witness for C7 amended: substituting the template referencing A with a
value that itself is a braced B token leaves that token verbatim in the
output of the fill_template pass. -/
theorem fill_template_single_pass_witness :
    (fun _ => wrapPh (strL "B")) (strL "A") <:+:
      substAll (fun _ => wrapPh (strL "B")) (wrapPh (strL "A")) :=
  fill_template_single_pass.2 (fun _ => wrapPh (strL "B"))
    (wrapPh (strL "A")) (strL "A") (by decide)

/-- C7 counterexample.  replace_placeholders is not a single pass: with the
mapping assigning A the value of a braced B token and B the value c, in that
insertion order, the braced B token inserted for A is substituted again by
the later key, so it does not appear verbatim in the output. -/
theorem replace_placeholders_resubstitutes :
    replace_placeholders (wrapPh (strL "A"))
      [(strL "A", PyVal.pstr (wrapPh (strL "B"))),
       (strL "B", PyVal.pstr (strL "c"))] = strL "c" ∧
    ¬ (wrapPh (strL "B") <:+: strL "c") := by
  constructor
  · rfl
  · decide

/-! ## C6 — which tokens the scan regex extracts -/

/-- A name character is neither an opening nor a closing brace. -/
theorem nameChar_not_brace (c : Char) (h : isNameChar c = true) :
    c ≠ lb ∧ c ≠ rb := by
  constructor <;> intro he <;> rw [he] at h <;> exact absurd h (by decide)

/-- Splitting a list at a known head. -/
theorem eq_cons_of_head (l : List Char) (c : Char) (h : l.head? = some c) :
    l = c :: l.tail := by
  cases l with
  | nil => cases h
  | cons a l2 =>
    injection h with h
    rw [h]
    rfl

/-- The greedy name run over a name list followed by a closing brace takes
exactly the name list. -/
theorem takeWhile_name_run (N xs : List Char)
    (hN : ∀ c ∈ N, isNameChar c = true) :
    (N ++ rb :: xs).takeWhile isNameChar = N ∧
    (N ++ rb :: xs).dropWhile isNameChar = rb :: xs := by
  induction N with
  | nil =>
    constructor <;>
      simp [List.takeWhile, List.dropWhile,
        show isNameChar rb = false from by decide]
  | cons a N2 ih =>
    have ha : isNameChar a = true := hN a (by simp)
    have hN2 : ∀ c ∈ N2, isNameChar c = true := fun c hc => hN c (by simp [hc])
    obtain ⟨ih1, ih2⟩ := ih hN2
    constructor <;>
      simp [List.takeWhile_cons, List.dropWhile_cons, ha, ih1, ih2]

/-- Splitting an append equation when the left block of the right side fits
inside the left block of the left side. -/
theorem prefix_split (s1 A B C : List Char) (heq : s1 ++ A = B ++ C)
    (hle : B.length ≤ s1.length) :
    s1 = B ++ s1.drop B.length ∧ C = s1.drop B.length ++ A := by
  have htake : B = s1.take B.length := by
    have h1 : (s1 ++ A).take B.length = s1.take B.length := by
      rw [List.take_append_eq_append_take]
      simp [Nat.sub_eq_zero_of_le hle]
    have h2 : (B ++ C).take B.length = B := by
      rw [List.take_append_eq_append_take]
      simp
    rw [heq, h2] at h1
    exact h1
  constructor
  · conv_lhs => rw [← List.take_append_drop B.length s1]
    rw [← htake]
  · have h1 : (s1 ++ A).drop B.length = s1.drop B.length ++ A := by
      rw [List.drop_append_eq_append_drop]
      simp [Nat.sub_eq_zero_of_le hle]
    have h2 : (B ++ C).drop B.length = C := by
      rw [List.drop_append_eq_append_drop]
      simp
    rw [heq, h2] at h1
    exact h1

/-- Splitting an append equation when the left block of the right side
strictly overhangs the left block of the left side. -/
theorem overlap_split (s1 A B C : List Char) (heq : s1 ++ A = B ++ C)
    (hlt : s1.length < B.length) :
    B = s1 ++ B.drop s1.length ∧ B.drop s1.length ≠ [] ∧
      B.drop s1.length <+: A := by
  have htake : s1 = B.take s1.length := by
    have h1 : (s1 ++ A).take s1.length = s1 := by simp
    have h2 : (B ++ C).take s1.length = B.take s1.length := by
      rw [List.take_append_eq_append_take]
      simp [Nat.sub_eq_zero_of_le (le_of_lt hlt)]
    rw [heq, h2] at h1
    exact h1.symm
  refine ⟨?_, ?_, ?_⟩
  · conv_lhs => rw [← List.take_append_drop s1.length B]
    rw [← htake]
  · intro hnil
    have hlen := congrArg List.length hnil
    simp at hlen
    omega
  · have h1 : (s1 ++ A).drop s1.length = A := by simp
    have h2 : (B ++ C).drop s1.length = B.drop s1.length ++ C := by
      rw [List.drop_append_eq_append_drop]
      simp [Nat.sub_eq_zero_of_le (le_of_lt hlt)]
    rw [heq, h2] at h1
    exact ⟨C, h1⟩

/-- A braced token of a brace-free name cannot start strictly before a
braced occurrence of another token and overhang into it: the overhanging
part would have to start with an opening brace, but after the leading
double brace every character of the token is brace-free or closing. -/
theorem no_brace_overlap (m N : List Char)
    (hm : ∀ c ∈ m, c ≠ lb ∧ c ≠ rb) (s1 w s2 : List Char) (hs1 : s1 ≠ [])
    (hsplit : wrapPh m = s1 ++ w) (hw : w ≠ [])
    (hpre : w <+: wrapPh N ++ s2) : False := by
  cases s1 with
  | nil => exact hs1 rfl
  | cons a s12 =>
    simp only [List.cons_append] at hsplit
    rw [wrapPh] at hsplit
    injection hsplit with ha htail
    cases s12 with
    | nil =>
      simp only [List.nil_append] at htail
      rw [← htail] at hpre
      have hpre2 : m ++ [rb, rb] <+: lb :: (N ++ [rb, rb] ++ s2) := by
        rw [show wrapPh N ++ s2 = lb :: (lb :: (N ++ [rb, rb] ++ s2)) from by
          simp [wrapPh]] at hpre
        exact (List.prefix_cons_inj lb).mp hpre
      obtain ⟨t2, ht2⟩ := hpre2
      cases m with
      | nil =>
        simp only [List.nil_append, List.cons_append] at ht2
        injection ht2 with h1 _
        exact absurd h1 (by decide)
      | cons b m2 =>
        simp only [List.cons_append, List.append_assoc] at ht2
        injection ht2 with h1 _
        exact (hm b (by simp)).1 h1
    | cons b s13 =>
      simp only [List.cons_append] at htail
      injection htail with hb htail2
      cases w with
      | nil => exact hw rfl
      | cons c w2 =>
        have hc_mem : c ∈ m ++ [rb, rb] := by
          rw [htail2]
          exact List.mem_append.mpr (Or.inr (by simp))
        have hc_ne : c ≠ lb := by
          rcases List.mem_append.mp hc_mem with hcm | hcr
          · exact (hm c hcm).1
          · simp at hcr
            rw [hcr]
            decide
        obtain ⟨t2, ht2⟩ := hpre
        rw [show wrapPh N ++ s2 = lb :: (lb :: (N ++ [rb, rb]) ++ s2) from by
          simp [wrapPh]] at ht2
        simp only [List.cons_append] at ht2
        injection ht2 with h1 _
        exact hc_ne h1

/-- C6 fuel-level lemma: a braced occurrence of a nonempty name over the
scan character class is always reported by the scan regex, wherever it
occurs: no other match can overlap it, so the scan reaches it intact. -/
theorem findAllUpperF_finds (N : List Char)
    (hN : ∀ c ∈ N, isNameChar c = true) (hNne : N ≠ []) :
    ∀ (f : Nat) (s1 s2 : List Char), (s1 ++ wrapPh N ++ s2).length ≤ f →
      wrapPh N ∈ findAllUpperF f (s1 ++ wrapPh N ++ s2) := by
  intro f
  induction f with
  | zero =>
    intro s1 s2 hlen
    exfalso
    simp [wrapPh] at hlen
  | succ f ih =>
    intro s1 s2 hlen
    cases s1 with
    | nil =>
      have hdecomp : ([] : List Char) ++ wrapPh N ++ s2 =
          lb :: lb :: (N ++ rb :: rb :: s2) := by
        simp [wrapPh]
      rw [hdecomp]
      obtain ⟨htw, hdw⟩ := takeWhile_name_run N (rb :: s2) hN
      simp only [findAllUpperF]
      rw [if_pos ⟨trivial, rfl⟩]
      simp only [List.tail_cons]
      rw [htw, hdw]
      rw [if_pos ⟨hNne, rfl, rfl⟩]
      exact List.mem_cons_self _ _
    | cons a s12 =>
      have hR : (a :: s12) ++ wrapPh N ++ s2 = a :: (s12 ++ wrapPh N ++ s2) := by
        simp [List.append_assoc]
      have hlen2 : (s12 ++ wrapPh N ++ s2).length ≤ f := by
        rw [hR] at hlen
        simpa using hlen
      rw [hR]
      by_cases hc : a = lb ∧ (s12 ++ wrapPh N ++ s2).head? = some lb
      · obtain ⟨Tt, hTt⟩ : ∃ x, s12 ++ wrapPh N ++ s2 = lb :: x :=
          ⟨_, eq_cons_of_head _ _ hc.2⟩
        rw [hTt]
        simp only [findAllUpperF]
        rw [if_pos ⟨hc.1, rfl⟩]
        simp only [List.tail_cons]
        by_cases hm2 : Tt.takeWhile isNameChar ≠ [] ∧
            (Tt.dropWhile isNameChar).head? = some rb ∧
            (Tt.dropWhile isNameChar).tail.head? = some rb
        · rw [if_pos hm2]
          obtain ⟨R1, hR1⟩ : ∃ x, Tt.dropWhile isNameChar = rb :: x :=
            ⟨_, eq_cons_of_head _ _ hm2.2.1⟩
          have hm3 : R1.head? = some rb := by
            have h := hm2.2.2
            rw [hR1] at h
            simpa using h
          obtain ⟨R2, hR2⟩ : ∃ x, R1 = rb :: x := ⟨_, eq_cons_of_head _ _ hm3⟩
          have hTt_dec : Tt = Tt.takeWhile isNameChar ++ rb :: rb :: R2 := by
            conv_lhs => rw [← List.takeWhile_append_dropWhile isNameChar Tt]
            rw [hR1, hR2]
          rw [hR1, hR2]
          simp only [List.tail_cons]
          have hstring : (a :: s12) ++ (wrapPh N ++ s2) =
              wrapPh (Tt.takeWhile isNameChar) ++ R2 := by
            have hassoc : (a :: s12) ++ (wrapPh N ++ s2) =
                a :: (s12 ++ wrapPh N ++ s2) := by
              simp [List.append_assoc]
            rw [hassoc, hTt, hc.1]
            conv_lhs => rw [hTt_dec]
            simp [wrapPh]
          have hU1 : 1 ≤ (Tt.takeWhile isNameChar).length :=
            List.length_pos.mpr hm2.1
          by_cases hk : (wrapPh (Tt.takeWhile isNameChar)).length ≤
              (a :: s12).length
          · obtain ⟨hsp1, hsp2⟩ := prefix_split (a :: s12) (wrapPh N ++ s2)
              (wrapPh (Tt.takeWhile isNameChar)) R2 hstring hk
            have hlen3 :
                (((a :: s12).drop (wrapPh (Tt.takeWhile isNameChar)).length) ++
                  wrapPh N ++ s2).length ≤ f := by
              have e1 := congrArg List.length hstring
              have e3 := congrArg List.length hsp2
              rw [hR, hTt] at hlen
              have e4 := congrArg List.length hTt_dec
              simp [List.length_append, wrapPh] at e1 e3 e4 hlen ⊢
              omega
            refine List.mem_cons_of_mem _ ?_
            rw [show R2 = ((a :: s12).drop
                (wrapPh (Tt.takeWhile isNameChar)).length) ++ wrapPh N ++ s2 from by
              rw [hsp2, List.append_assoc]]
            exact ih _ s2 hlen3
          · exfalso
            obtain ⟨hov1, hov2, hov3⟩ := overlap_split (a :: s12)
              (wrapPh N ++ s2) (wrapPh (Tt.takeWhile isNameChar)) R2 hstring
              (Nat.lt_of_not_le hk)
            exact no_brace_overlap (Tt.takeWhile isNameChar) N
              (fun c hc2 => nameChar_not_brace c (List.mem_takeWhile_imp hc2))
              (a :: s12) _ s2 (by simp) hov1 hov2 hov3
        · rw [if_neg hm2]
          rw [← hTt]
          exact ih s12 s2 hlen2
      · simp only [findAllUpperF]
        rw [if_neg hc]
        exact ih s12 s2 hlen2

/-- C6 counterexample.  The scan regex only extracts names over capital
letters and underscore: the braced token of the printable, brace-free,
non-catalog name foo is present in the template, yet unknown is empty. -/
theorem scan_unknown_misses_lowercase :
    (find_placeholders_in_template (wrapPh (strL "foo"))).unknown = [] ∧
    wrapPh (strL "foo") ∉ PLACEHOLDERS.map Prod.fst := by decide

/-- C6 amended.  For every name N that is nonempty and made only of capital
letters A to Z and underscore, if the braced token of N occurs in the
template and N is not in the builtin catalog, then the token appears in
the unknown classification of the scan. -/
theorem scan_unknown_covers_upper (t N : List Char)
    (hN : ∀ c ∈ N, isNameChar c = true) (hNne : N ≠ [])
    (hcat : wrapPh N ∉ PLACEHOLDERS.map Prod.fst)
    (hocc : wrapPh N <:+: t) :
    wrapPh N ∈ (find_placeholders_in_template t).unknown := by
  obtain ⟨s1, s2, hts⟩ := hocc
  have hf : wrapPh N ∈ findAllUpperF t.length t := by
    rw [← hts]
    exact findAllUpperF_finds N hN hNne _ s1 s2 (Nat.le_refl _)
  have hfound : wrapPh N ∈ foundPlaceholders t := by
    unfold foundPlaceholders
    exact List.mem_dedup.mpr hf
  unfold find_placeholders_in_template
  exact List.mem_filter.mpr ⟨hfound, by simpa using hcat⟩

/-- Witness for C6 amended at the template consisting of the braced token
FOO, which is not in the catalog. -/
theorem scan_unknown_covers_upper_witness :
    wrapPh (strL "FOO") ∈
      (find_placeholders_in_template (wrapPh (strL "FOO"))).unknown :=
  scan_unknown_covers_upper (wrapPh (strL "FOO")) (strL "FOO")
    (by decide) (by decide) (by decide) ⟨[], [], by simp⟩

/-! ## C10 — replace_placeholders leaves unmatched tokens intact -/

/-- Two brace-free names followed by the closing double brace are prefix
incomparable unless equal. -/
theorem name_close_prefix (m : List Char) :
    ∀ (N : List Char), (∀ c ∈ m, c ≠ lb ∧ c ≠ rb) →
      (∀ c ∈ N, c ≠ lb ∧ c ≠ rb) → m ≠ N →
      ∀ x, ¬ ((m ++ [rb, rb]) <+: (N ++ [rb, rb] ++ x)) := by
  induction m with
  | nil =>
    intro N hm hN hne x hpre
    cases N with
    | nil => exact hne rfl
    | cons c N2 =>
      obtain ⟨t, ht⟩ := hpre
      simp only [List.nil_append, List.cons_append, List.append_assoc] at ht
      injection ht with h1 _
      exact (hN c (by simp)).2 h1.symm
  | cons a m2 ih =>
    intro N hm hN hne x hpre
    cases N with
    | nil =>
      obtain ⟨t, ht⟩ := hpre
      simp only [List.cons_append, List.nil_append, List.append_assoc] at ht
      injection ht with h1 _
      exact (hm a (by simp)).2 h1
    | cons c N2 =>
      obtain ⟨t, ht⟩ := hpre
      simp only [List.cons_append, List.append_assoc] at ht
      injection ht with h1 h2
      refine ih N2 (fun c2 hc2 => hm c2 (by simp [hc2]))
        (fun c2 hc2 => hN c2 (by simp [hc2]))
        (fun he => hne (by rw [h1, he])) x ?_
      exact ⟨t, by simpa [List.append_assoc] using h2⟩

/-- The braced token of a brace-free name m is never a prefix of text that
starts with the braced token of a different brace-free name N. -/
theorem wrap_not_prefix (m N : List Char)
    (hm : ∀ c ∈ m, c ≠ lb ∧ c ≠ rb) (hN : ∀ c ∈ N, c ≠ lb ∧ c ≠ rb)
    (hne : m ≠ N) (s2 : List Char) :
    ¬ (wrapPh m <+: wrapPh N ++ s2) := by
  intro hpre
  rw [show wrapPh N ++ s2 = lb :: (lb :: (N ++ [rb, rb] ++ s2)) from by
    simp [wrapPh]] at hpre
  rw [wrapPh] at hpre
  have h1 := (List.prefix_cons_inj lb).mp hpre
  have h2 := (List.prefix_cons_inj lb).mp h1
  exact name_close_prefix m N hm hN hne s2 h2

/-- A pattern starting with an opening brace is not a prefix of text
starting with any other character. -/
theorem not_prefix_head (pat : List Char) (x : Char) (xs : List Char)
    (hp : pat.head? = some lb) (hx : x ≠ lb) : ¬ (pat <+: x :: xs) := by
  intro hpre
  obtain ⟨Pt, hPt⟩ : ∃ p, pat = lb :: p := ⟨_, eq_cons_of_head _ _ hp⟩
  rw [hPt] at hpre
  obtain ⟨t, ht⟩ := hpre
  simp only [List.cons_append] at ht
  injection ht with h1 _
  exact hx h1.symm

/-- Walking the replacement scan through a brace-free run followed by the
closing double brace copies it verbatim: no occurrence of a pattern that
starts with an opening brace can begin inside it. -/
theorem replaceAllF_walk (pat rep : List Char) (hp : pat.head? = some lb) :
    ∀ (u : List Char), (∀ c ∈ u, c ≠ lb) →
      ∀ (f : Nat) (s2 : List Char), (u ++ rb :: rb :: s2).length ≤ f →
        ∃ g, replaceAllF pat rep f (u ++ rb :: rb :: s2) =
            u ++ rb :: rb :: replaceAllF pat rep g s2 ∧ s2.length ≤ g := by
  intro u
  induction u with
  | nil =>
    intro _ f s2 hlen
    simp only [List.nil_append, List.length_cons] at hlen
    cases f with
    | zero => omega
    | succ f1 =>
      cases f1 with
      | zero => omega
      | succ f2 =>
        refine ⟨f2, ?_, by omega⟩
        simp only [List.nil_append, replaceAllF]
        rw [if_neg (fun h => not_prefix_head pat rb _ hp (by decide)
          (List.isPrefixOf_iff_prefix.mp h.2))]
        rw [if_neg (fun h => not_prefix_head pat rb _ hp (by decide)
          (List.isPrefixOf_iff_prefix.mp h.2))]
  | cons a u2 ih =>
    intro hu f s2 hlen
    cases f with
    | zero =>
      exfalso
      simp [List.length_append] at hlen
    | succ f1 =>
      simp only [List.cons_append, replaceAllF]
      rw [if_neg (fun h => not_prefix_head pat a _ hp (hu a (by simp))
        (List.isPrefixOf_iff_prefix.mp h.2))]
      obtain ⟨g, hg, hgle⟩ := ih (fun c hc => hu c (by simp [hc])) f1 s2 (by
        simp only [List.cons_append, List.length_cons] at hlen
        omega)
      refine ⟨g, ?_, hgle⟩
      exact congrArg (fun z => a :: z) hg

/-- C10 fuel-level lemma: a braced occurrence of a brace-free name N
survives a full replacement pass for the braced pattern of any other
brace-free name m, verbatim. -/
theorem replaceAllF_preserves (m N rep : List Char)
    (hm : ∀ c ∈ m, c ≠ lb ∧ c ≠ rb) (hN : ∀ c ∈ N, c ≠ lb ∧ c ≠ rb)
    (hne : m ≠ N) :
    ∀ (f : Nat) (s1 s2 : List Char), (s1 ++ wrapPh N ++ s2).length ≤ f →
      wrapPh N <:+: replaceAllF (wrapPh m) rep f (s1 ++ wrapPh N ++ s2) := by
  intro f
  induction f with
  | zero =>
    intro s1 s2 hlen
    exfalso
    simp [wrapPh] at hlen
  | succ f ih =>
    intro s1 s2 hlen
    cases s1 with
    | nil =>
      have hdecomp : ([] : List Char) ++ wrapPh N ++ s2 =
          lb :: lb :: (N ++ rb :: rb :: s2) := by simp [wrapPh]
      rw [hdecomp] at hlen ⊢
      simp only [replaceAllF]
      have hnp1 : ¬ (wrapPh m ≠ [] ∧
          (wrapPh m).isPrefixOf (lb :: lb :: (N ++ rb :: rb :: s2)) = true) := by
        rintro ⟨-, h2⟩
        have h3 := List.isPrefixOf_iff_prefix.mp h2
        rw [show lb :: lb :: (N ++ rb :: rb :: s2) = wrapPh N ++ s2 from by
          simp [wrapPh]] at h3
        exact wrap_not_prefix m N hm hN hne s2 h3
      rw [if_neg hnp1]
      cases f with
      | zero =>
        exfalso
        simp [List.length_append] at hlen
      | succ f2 =>
        simp only [replaceAllF]
        have hnp2 : ¬ (wrapPh m ≠ [] ∧
            (wrapPh m).isPrefixOf (lb :: (N ++ rb :: rb :: s2)) = true) := by
          rintro ⟨-, h2⟩
          have h3 := List.isPrefixOf_iff_prefix.mp h2
          rw [wrapPh] at h3
          obtain ⟨t, ht⟩ := h3
          simp only [List.cons_append] at ht
          injection ht with _ ht2
          cases N with
          | nil =>
            simp only [List.nil_append] at ht2
            injection ht2 with h4 _
            exact absurd h4 (by decide)
          | cons c N2 =>
            simp only [List.cons_append] at ht2
            injection ht2 with h4 _
            exact (hN c (by simp)).1 h4.symm
        rw [if_neg hnp2]
        obtain ⟨g, hg, _⟩ := replaceAllF_walk (wrapPh m) rep
          (by simp [wrapPh]) N (fun c hc => (hN c hc).1) f2 s2 (by
            simp [List.length_append] at hlen ⊢
            omega)
        rw [hg]
        exact ⟨[], replaceAllF (wrapPh m) rep g s2, by
          simp [wrapPh, List.append_assoc]⟩
    | cons a s12 =>
      have hR : (a :: s12) ++ wrapPh N ++ s2 = a :: (s12 ++ wrapPh N ++ s2) := by
        simp [List.append_assoc]
      have hlen2 : (s12 ++ wrapPh N ++ s2).length ≤ f := by
        rw [hR] at hlen
        simpa using hlen
      rw [hR]
      simp only [replaceAllF]
      by_cases hc : wrapPh m ≠ [] ∧
          (wrapPh m).isPrefixOf (a :: (s12 ++ wrapPh N ++ s2)) = true
      · rw [if_pos hc]
        obtain ⟨C, hC⟩ := List.isPrefixOf_iff_prefix.mp hc.2
        have hstring : (a :: s12) ++ (wrapPh N ++ s2) = wrapPh m ++ C := by
          rw [show (a :: s12) ++ (wrapPh N ++ s2) =
            a :: (s12 ++ wrapPh N ++ s2) from by simp [List.append_assoc], ← hC]
        by_cases hk : (wrapPh m).length ≤ (a :: s12).length
        · obtain ⟨hsp1, hsp2⟩ := prefix_split (a :: s12) (wrapPh N ++ s2)
            (wrapPh m) C hstring hk
          have hdrop : (a :: (s12 ++ wrapPh N ++ s2)).drop (wrapPh m).length = C := by
            rw [← hC]
            simp
          rw [hdrop]
          have hlen3 : ((a :: s12).drop (wrapPh m).length ++ wrapPh N ++ s2).length
              ≤ f := by
            have e3 := congrArg List.length hsp2
            rw [hR] at hlen
            have e1 := congrArg List.length hstring
            simp [List.length_append, wrapPh] at e1 e3 hlen ⊢
            omega
          rw [show C = (a :: s12).drop (wrapPh m).length ++ wrapPh N ++ s2 from by
            rw [hsp2, List.append_assoc]]
          exact infix_append_left rep (ih _ s2 hlen3)
        · exfalso
          obtain ⟨hov1, hov2, hov3⟩ := overlap_split (a :: s12) (wrapPh N ++ s2)
            (wrapPh m) C hstring (Nat.lt_of_not_le hk)
          exact no_brace_overlap m N hm (a :: s12) _ s2 (by simp) hov1 hov2 hov3
      · rw [if_neg hc]
        exact List.infix_cons (ih s12 s2 hlen2)

/-- One replace_placeholders iteration for a brace-free key different from N
leaves a braced occurrence of N intact. -/
theorem replaceStep_preserves (t k : List Char) (v : PyVal) (N : List Char)
    (hk : ∀ c ∈ k, c ≠ lb ∧ c ≠ rb) (hkN : k ≠ N)
    (hN : ∀ c ∈ N, c ≠ lb ∧ c ≠ rb)
    (h : wrapPh N <:+: t) : wrapPh N <:+: replaceStep t (k, v) := by
  have hkp : (lb :: lb :: []).isPrefixOf k = false := by
    cases k with
    | nil => rfl
    | cons c k2 =>
      have hc : c ≠ lb := (hk c (by simp)).1
      simp [List.isPrefixOf, Ne.symm hc]
  unfold replaceStep
  rw [if_neg (by rw [hkp]; exact Bool.false_ne_true)]
  obtain ⟨s1, s2, hts⟩ := h
  rw [← hts]
  show wrapPh N <:+: replaceAll (wrapPh k) _ (s1 ++ wrapPh N ++ s2)
  unfold replaceAll
  exact replaceAllF_preserves k N _ hk hN hkN _ s1 s2 (Nat.le_refl _)

/-- C10 amended.  replace_placeholders is total by construction; for a
values mapping whose keys are placeholder names (brace-free strings), every
braced occurrence of a brace-free name with no corresponding key remains
verbatim (as a contiguous infix) in the output; and a None value is
substituted as the empty string — although str of None is the text None,
the code inserts the empty string instead. -/
theorem replace_placeholders_behavior :
    (∀ (t : List Char) (values : List (List Char × PyVal)) (N : List Char),
        (∀ c ∈ N, c ≠ lb ∧ c ≠ rb) →
        (∀ kv ∈ values, (∀ c ∈ kv.1, c ≠ lb ∧ c ≠ rb) ∧ kv.1 ≠ N) →
        wrapPh N <:+: t → wrapPh N <:+: replace_placeholders t values) ∧
    (∀ (t k : List Char),
        replaceStep t (k, PyVal.pnone) = replaceStep t (k, PyVal.pstr []) ∧
        pyStr PyVal.pnone = strL "None") := by
  constructor
  · intro t values N hN hkeys h
    induction values generalizing t with
    | nil => exact h
    | cons kv rest ih =>
      show wrapPh N <:+: rest.foldl replaceStep (replaceStep t kv)
      obtain ⟨hk, hkN⟩ := hkeys kv (by simp)
      exact ih (replaceStep t kv)
        (fun kv2 hm2 => hkeys kv2 (by simp [hm2]))
        (replaceStep_preserves t kv.1 kv.2 N hk hkN hN h)
  · intro t k
    exact ⟨rfl, rfl⟩

/-- Witness for C10 amended: the braced N token survives replacement of the
unrelated key A. -/
theorem replace_placeholders_behavior_witness :
    wrapPh (strL "N") <:+: replace_placeholders
      (wrapPh (strL "N") ++ strL "x")
      [(strL "A", PyVal.pstr (strL "y"))] :=
  replace_placeholders_behavior.1 (wrapPh (strL "N") ++ strL "x")
    [(strL "A", PyVal.pstr (strL "y"))] (strL "N")
    (by decide) (by decide) ⟨[], strL "x", by simp⟩

/-- C10 counterexample.  With an adversarial key consisting of the bare
double open brace (the code accepts any key already starting with a double
brace as a literal pattern), the braced N occurrence is destroyed even
though N has no corresponding key: the universal claim fails for arbitrary
key strings. -/
theorem replace_placeholders_brace_key_counterexample :
    replace_placeholders (wrapPh (strL "N")) [([lb, lb], PyVal.pstr [])] =
      strL "N" ++ [rb, rb] ∧
    ¬ (wrapPh (strL "N") <:+: strL "N" ++ [rb, rb]) ∧
    strL "N" ≠ [lb, lb] ∧ wrapPh (strL "N") ≠ [lb, lb] := by
  refine ⟨rfl, by decide, by decide, by decide⟩

end Knowmad
